import Mathlib

/-!
Verification development for the unsupervised morphological segmenter of
`pytorch_translate/research/unsupervised_morphology`.

The only file of the morphology component present in the repository snapshot is
`morphology_runner.py` (the command-line entry point).  Its logic — argument
defaults, the training block, and the segmentation block with its word cache —
is embedded below directly from that source.  The `unsupervised_morphology`
module it calls (`MorphologyHMMParams`, `MorphologySegmentor`,
`UnsupervisedMorphology`) is not in the snapshot; those parts are modelled from
the specification and marked `Modelled from the spec:` in their doc comments.

Words and lines are modelled as `List Char`; probabilities as `ℚ`.
-/

namespace Morphology

/-- Python whitespace test used by `str.strip()` / `str.split()` with no
arguments: space, tab, newline, carriage return, vertical tab, form feed. -/
def pyIsSpace (c : Char) : Bool :=
  c = ' ' || c = '\t' || c = '\n' || c = '\r' || c = '\x0b' || c = '\x0c'

/-- Python `str.strip()`: drop leading and trailing whitespace. -/
def pyStrip (l : List Char) : List Char :=
  ((l.dropWhile pyIsSpace).reverse.dropWhile pyIsSpace).reverse

/-- Helper for `pySplit`: `acc` holds the characters of the token currently
being read, in reverse order. -/
def pySplitAux : List Char → List Char → List (List Char)
  | [], acc => if acc.isEmpty then [] else [acc.reverse]
  | c :: cs, acc =>
    if pyIsSpace c then
      (if acc.isEmpty then [] else [acc.reverse]) ++ pySplitAux cs []
    else
      pySplitAux cs (c :: acc)

/-- Python `str.split()` with no arguments: maximal runs of non-whitespace
characters, with no empty tokens. -/
def pySplit (l : List Char) : List (List Char) :=
  pySplitAux l []

/-- Python `" ".join(tokens)`. -/
def joinSpace (tokens : List (List Char)) : List Char :=
  List.intercalate [' '] tokens

/-! ## The segmentation entry point (`morphology_runner.py`, lines 168-183)

The segmentation block builds `segment_cache = {}`, then for each input line
computes `line.strip().split()`, segments each word through the cache, and
writes `" ".join(output) + "\n"`.  `segment_word` itself lives in the
`unsupervised_morphology` module (not in the snapshot); the loop is embedded
with the segmentor abstracted as an oracle function `segFn`, which is legitimate
because a `MorphologySegmentor` over a fixed loaded `MorphologyHMMParams` is a
deterministic word-to-string function.  `calls` records each invocation of
`segment_word`, in order. -/

/-- Python `word in segment_cache` / `segment_cache[word]` over an association
list. -/
def lookupCache : List (List Char × List Char) → List Char → Option (List Char)
  | [], _ => none
  | (k, v) :: rest, w => if w = k then some v else lookupCache rest w

/-- State of the segmentation run: the memo dictionary `segment_cache` and the
log of words actually passed to `segment_word`. -/
structure SegRunState where
  cache : List (List Char × List Char)
  calls : List (List Char)

/-- `segment_cache = {}` at the start of the run. -/
def initialState : SegRunState := ⟨[], []⟩

/-- One word of the inner loop (runner lines 176-181): on a cache miss call
`segment_word` (the oracle `segFn`) and store the result; on a hit return the
cached string without recomputation. -/
def processWord (segFn : List Char → List Char) (st : SegRunState)
    (word : List Char) : SegRunState × List Char :=
  match lookupCache st.cache word with
  | some s => (st, s)
  | none => (⟨(word, segFn word) :: st.cache, st.calls ++ [word]⟩, segFn word)

/-- The inner loop over the words of one line, left to right, threading the
cache state and collecting the per-word segmentation strings. -/
def processWords (segFn : List Char → List Char) :
    SegRunState → List (List Char) → SegRunState × List (List Char)
  | st, [] => (st, [])
  | st, w :: ws =>
    let r := processWord segFn st w
    let rest := processWords segFn r.1 ws
    (rest.1, r.2 :: rest.2)

/-- One line of the outer loop (runner lines 173-182): tokenize with
`line.strip().split()` and join the per-word results with single spaces. -/
def processLine (segFn : List Char → List Char) (st : SegRunState)
    (line : List Char) : SegRunState × List Char :=
  let r := processWords segFn st (pySplit (pyStrip line))
  (r.1, joinSpace r.2)

/-- The outer loop over input lines, collecting one output line per input
line, in order. -/
def processLines (segFn : List Char → List Char) :
    SegRunState → List (List Char) → SegRunState × List (List Char)
  | st, [] => (st, [])
  | st, line :: ls =>
    let r := processLine segFn st line
    let rest := processLines segFn r.1 ls
    (rest.1, r.2 :: rest.2)

/-- The whole segmentation entry point: the list of output lines written for
the given input lines. -/
def runSegmentation (segFn : List Char → List Char)
    (lines : List (List Char)) : List (List Char) :=
  (processLines segFn initialState lines).2

/-- All words the entry point feeds to the cache loop, in processing order. -/
def allWords (lines : List (List Char)) : List (List Char) :=
  lines.flatMap fun line => pySplit (pyStrip line)

/-- Run invariant: every cached value is the segmentor's answer for its key,
`segment_word` was called at most once per word, and the called words are
exactly the cached keys. -/
def StateGood (segFn : List Char → List Char) (st : SegRunState) : Prop :=
  (∀ p ∈ st.cache, p.2 = segFn p.1) ∧ st.calls.Nodup ∧
  (∀ w, w ∈ st.calls ↔ (lookupCache st.cache w).isSome)

/-! ## Command-line options (`morphology_runner.py`, `get_arg_parser`) and the
training block (lines 137-161)

`optparse` option values are embedded as a record of the destination fields
with the literal defaults of `get_arg_parser`.  Python `int` options are
`Int`, `float` options are `ℚ`. -/

structure Options where
  train_file : Option (List Char)
  model_path : Option (List Char)
  em_iter : Int
  num_cpus : Int
  input_file : Option (List Char)
  output_file : Option (List Char)
  add_affix_symbols : Bool
  save_checkpoint : Bool
  smooth_const : ℚ
  normal_init : Bool
  normal_mean : ℚ
  use_hardEM : Bool
  normal_stddev : ℚ
  use_morph_likeness : Bool
  perplexity_threshold : ℚ
  length_threshold : ℚ
  perplexity_slope : ℚ
  length_slope : ℚ
  investigate : Bool

/-- The defaults of `get_arg_parser`, field by field from the source. -/
def get_arg_parser_defaults : Options :=
  { train_file := none
    model_path := none
    em_iter := 30
    num_cpus := 10
    input_file := none
    output_file := none
    add_affix_symbols := true
    save_checkpoint := false
    smooth_const := 2
    normal_init := false
    normal_mean := 2
    use_hardEM := false
    normal_stddev := 1
    use_morph_likeness := true
    perplexity_threshold := 10
    length_threshold := 3
    perplexity_slope := 1
    length_slope := 2
    investigate := false }

/-- The two E-step strategies of the EM trainer. -/
inductive EStepMode
  | viterbi
  | forwardBackward
deriving DecidableEq

/-- Modelled from the spec: the `unsupervised_morphology` module (absent from
the snapshot) selects the EM trainer's E-step strategy from the `use_hardEM`
flag — hard EM runs Viterbi decoding, otherwise the forward-backward-style
expectation over all legal segmentations is used. -/
def estepMode (use_hardEM : Bool) : EStepMode :=
  if use_hardEM then EStepMode.viterbi else EStepMode.forwardBackward

/-- Observable events of a training run: one EM iteration completing, or a
save of the Parameter Store to a path. -/
inductive TrainEvent
  | emIteration : TrainEvent
  | saveModel : List Char → TrainEvent
deriving DecidableEq

/-- Modelled from the spec: `expectation_maximization(num_iterations,
num_workers, checkpoint_path)` (in the absent `unsupervised_morphology`
module) runs exactly `num_iterations` E/M passes and, when a checkpoint path
is supplied, persists the Parameter Store to it after every iteration.  The
model records the event trace. -/
def expectation_maximization_events (n : Nat) (ckpt : Option (List Char)) :
    List TrainEvent :=
  (List.range n).flatMap fun _ =>
    TrainEvent.emIteration ::
      (match ckpt with
       | some p => [TrainEvent.saveModel p]
       | none => [])

/-- The training block of `morphology_runner.py` (lines 140-161): when both a
training file and a model path are given, run EM with the model path as
checkpoint path exactly when `save_checkpoint` is set, then save once at the
end exactly when it is not.  Returns the event trace. -/
def runTrainingEvents (opts : Options) : List TrainEvent :=
  match opts.train_file, opts.model_path with
  | some _, some mpath =>
    expectation_maximization_events opts.em_iter.toNat
        (if opts.save_checkpoint then some mpath else none)
      ++ (if opts.save_checkpoint then [] else [TrainEvent.saveModel mpath])
  | _, _ => []

/-! ## The HMM Parameter Store: smoothing (spec 4.2, `Smooth()`)

The `MorphologyHMMParams` class is in the absent `unsupervised_morphology`
module; its tables and smoothing step are modelled from the spec.  Rows are
association lists keyed by substring (emission) or by state (transition), with
`ℚ` values. -/

/-- The affix-adjacency states of the transition table (spec 3): word start,
inside a prefix run, the stem, inside a suffix run, word end. -/
inductive HMMState
  | start
  | pre
  | stem
  | suf
  | eow
deriving DecidableEq

/-- Modelled from the spec (4.2): additive smoothing of one row of raw counts
with constant `k`, then renormalization — entry `c` becomes
`(c + k) / (T + n·k)` where `T` is the raw row total and `n` the row size. -/
def smoothRow {α : Type} (k : ℚ) (row : List (α × ℚ)) : List (α × ℚ) :=
  row.map fun kv =>
    (kv.1, (kv.2 + k) / ((row.map Prod.snd).sum + row.length * k))

/-- The value part of `smoothRow`, on the bare value list. -/
def smoothVals (k : ℚ) (vs : List ℚ) : List ℚ :=
  vs.map fun c => (c + k) / (vs.sum + vs.length * k)

/-- Raw count tables accumulated by an M-step: one emission row per morph
class, one transition row per state. -/
structure CountTables where
  preEmit : List (List Char × ℚ)
  stemEmit : List (List Char × ℚ)
  sufEmit : List (List Char × ℚ)
  trans : List (HMMState × List (HMMState × ℚ))

/-- Modelled from the spec (4.2 `Smooth()`): apply additive smoothing with
`smoothing_const` and renormalize every emission row and every transition
row. -/
def smoothCounts (k : ℚ) (t : CountTables) : CountTables :=
  ⟨smoothRow k t.preEmit, smoothRow k t.stemEmit, smoothRow k t.sufEmit,
    t.trans.map fun sr => (sr.1, smoothRow k sr.2)⟩

/-- All value rows of the tables: the three per-class emission rows and the
per-state transition rows. -/
def valueRows (t : CountTables) : List (List ℚ) :=
  [t.preEmit.map Prod.snd, t.stemEmit.map Prod.snd, t.sufEmit.map Prod.snd]
    ++ t.trans.map fun sr => sr.2.map Prod.snd

/-! ## The HMM Parameter Store: serialization (spec 4.2 / 6, `Save` / `Load`)

Modelled from the spec: the store is a single object holding the word-count
table, the three probability tables (emission, transition, likeness) and the
smoothing constant; `Save` serializes it to a single pickle-like tagged value,
`Load` deserializes, and the pair must round-trip exactly. -/

/-- Modelled from the spec (3, 4.2, 6): the `MorphologyHMMParams` Parameter
Store — per-class emission probability rows, the transition table, per-class
morph-likeness rows, the training word-count table, and the smoothing
constant. -/
structure MorphologyHMMParams where
  word_counts : List (List Char × Nat)
  preEmitProbs : List (List Char × ℚ)
  stemEmitProbs : List (List Char × ℚ)
  sufEmitProbs : List (List Char × ℚ)
  affix_trans_probs : List ((HMMState × HMMState) × ℚ)
  likenessPre : List (List Char × ℚ)
  likenessStem : List (List Char × ℚ)
  likenessSuf : List (List Char × ℚ)
  smoothing_const : ℚ

/-- A pickle-like serialized value: tagged strings, rationals, naturals and
lists. -/
inductive PVal
  | pstr : List Char → PVal
  | pnum : ℚ → PVal
  | pnat : Nat → PVal
  | plist : List PVal → PVal

/-- Serialize one probability row. -/
def encodeQRow (row : List (List Char × ℚ)) : PVal :=
  PVal.plist (row.map fun kv => PVal.plist [PVal.pstr kv.1, PVal.pnum kv.2])

/-- Decode a list of serialized entries, failing if any entry is malformed. -/
def decodeAll {β : Type} (dec : PVal → Option β) : List PVal → Option (List β)
  | [] => some []
  | v :: vs =>
    match dec v, decodeAll dec vs with
    | some b, some bs => some (b :: bs)
    | _, _ => none

def decodeQEntry : PVal → Option (List Char × ℚ)
  | PVal.plist [PVal.pstr k, PVal.pnum v] => some (k, v)
  | _ => none

def decodeQRow : PVal → Option (List (List Char × ℚ))
  | PVal.plist items => decodeAll decodeQEntry items
  | _ => none

/-- Serialize the word-count table. -/
def encodeNRow (row : List (List Char × Nat)) : PVal :=
  PVal.plist (row.map fun kv => PVal.plist [PVal.pstr kv.1, PVal.pnat kv.2])

def decodeNEntry : PVal → Option (List Char × Nat)
  | PVal.plist [PVal.pstr k, PVal.pnat v] => some (k, v)
  | _ => none

def decodeNRow : PVal → Option (List (List Char × Nat))
  | PVal.plist items => decodeAll decodeNEntry items
  | _ => none

/-- The serialized tag of each transition-table state. -/
def stateTag : HMMState → List Char
  | HMMState.start => "START".data
  | HMMState.pre => "prefix".data
  | HMMState.stem => "stem".data
  | HMMState.suf => "suffix".data
  | HMMState.eow => "END".data

def decodeState (l : List Char) : Option HMMState :=
  if l = "START".data then some HMMState.start
  else if l = "prefix".data then some HMMState.pre
  else if l = "stem".data then some HMMState.stem
  else if l = "suffix".data then some HMMState.suf
  else if l = "END".data then some HMMState.eow
  else none

/-- Serialize the transition table. -/
def encodeTransRow (row : List ((HMMState × HMMState) × ℚ)) : PVal :=
  PVal.plist (row.map fun kv =>
    PVal.plist [PVal.pstr (stateTag kv.1.1), PVal.pstr (stateTag kv.1.2),
      PVal.pnum kv.2])

def decodeTransEntry : PVal → Option ((HMMState × HMMState) × ℚ)
  | PVal.plist [PVal.pstr a, PVal.pstr b, PVal.pnum v] =>
    match decodeState a, decodeState b with
    | some s1, some s2 => some ((s1, s2), v)
    | _, _ => none
  | _ => none

def decodeTransRow : PVal → Option (List ((HMMState × HMMState) × ℚ))
  | PVal.plist items => decodeAll decodeTransEntry items
  | _ => none

/-- Modelled from the spec (4.2 / 6 `Save`): serialize the full table set plus
the word-count table into a single object. -/
def MorphologyHMMParams.save (p : MorphologyHMMParams) : PVal :=
  PVal.plist [encodeNRow p.word_counts, encodeQRow p.preEmitProbs,
    encodeQRow p.stemEmitProbs, encodeQRow p.sufEmitProbs,
    encodeTransRow p.affix_trans_probs, encodeQRow p.likenessPre,
    encodeQRow p.likenessStem, encodeQRow p.likenessSuf,
    PVal.pnum p.smoothing_const]

/-- Modelled from the spec (4.2 / 6 `Load`): deserialize a Parameter Store,
failing on any malformed value. -/
def MorphologyHMMParams.load : PVal → Option MorphologyHMMParams
  | PVal.plist [wc, pe, se, su, tr, lp, ls, lu, PVal.pnum k] => do
    let wc' ← decodeNRow wc
    let pe' ← decodeQRow pe
    let se' ← decodeQRow se
    let su' ← decodeQRow su
    let tr' ← decodeTransRow tr
    let lp' ← decodeQRow lp
    let ls' ← decodeQRow ls
    let lu' ← decodeQRow lu
    pure ⟨wc', pe', se', su', tr', lp', ls', lu', k⟩
  | _ => none

/-! ## The Segmentor (spec 4.4, `MorphologySegmentor`)

Modelled from the spec: `segment_viterbi` finds the maximum-score legal
prefix*-stem-suffix* partition of a word — the score of a partition is the
product of the emission probabilities of its substrings under their classes
and of the transition probabilities along the induced state sequence, and ties
go to the earliest candidate (smallest boundary index).  The spec describes an
O(n²) dynamic program computing this maximum; the model computes the same
contract by direct maximization over all legal tagged partitions.  The empty
word is rejected as malformed input. -/

/-- The morph classes of a segmentation (spec 3): PREFIX, STEM, SUFFIX. -/
inductive MorphClass
  | pre
  | stem
  | suf
deriving DecidableEq

/-- Association-list lookup. -/
def assocLookup {α β : Type} [DecidableEq α] : List (α × β) → α → Option β
  | [], _ => none
  | (k, v) :: rest, a => if a = k then some v else assocLookup rest a

/-- All ways to cut a list into a front part and a back part (front possibly
empty), in order of increasing cut position. -/
def allSplits : List Char → List (List Char × List Char)
  | [] => [([], [])]
  | c :: cs => ([], c :: cs) :: (allSplits cs).map fun pq => (c :: pq.1, pq.2)

/-- All ways to cut a word into a sequence of non-empty chunks, by boundary
position.  The fuel argument only bounds the recursion depth; `l.length` fuel
is always enough because each chunk consumes at least one character. -/
def compositionsFuel : Nat → List Char → List (List (List Char))
  | _, [] => [[]]
  | 0, _ :: _ => []
  | n + 1, c :: cs =>
    (allSplits cs).flatMap fun pq =>
      (compositionsFuel n pq.2).map fun rest => (c :: pq.1) :: rest

/-- All chunk sequences (non-empty, concatenating to the word). -/
def compositions (l : List Char) : List (List (List Char)) :=
  compositionsFuel l.length l

/-- Tag the chunks before position `s` as prefixes, the chunk at `s` as the
stem, and the chunks after `s` as suffixes. -/
def tagWith (s : Nat) (chunks : List (List Char)) :
    List (List Char × MorphClass) :=
  ((chunks.take s).map fun t => (t, MorphClass.pre))
    ++ (((chunks.drop s).take 1).map fun t => (t, MorphClass.stem))
    ++ ((chunks.drop (s + 1)).map fun t => (t, MorphClass.suf))

/-- All legal tagged partitions of a word: every chunk sequence, with every
possible stem position. -/
def candidates (w : List Char) : List (List (List Char × MorphClass)) :=
  (compositions w).flatMap fun ch =>
    (List.range ch.length).map fun s => tagWith s ch

/-- The hidden state a morph class occupies. -/
def classState : MorphClass → HMMState
  | MorphClass.pre => HMMState.pre
  | MorphClass.stem => HMMState.stem
  | MorphClass.suf => HMMState.suf

/-- The emission row of a class in the Parameter Store. -/
def emitRow (p : MorphologyHMMParams) : MorphClass → List (List Char × ℚ)
  | MorphClass.pre => p.preEmitProbs
  | MorphClass.stem => p.stemEmitProbs
  | MorphClass.suf => p.sufEmitProbs

/-- Modelled from the spec: emission probability of a substring under a morph
class — the stored row value, or, for a substring unseen in training, the
smoothed non-zero floor (the spec fixes no exact formula; modelled as the
additive-smoothing value of a zero raw count over the smoothed row mass). -/
def emission_prob (p : MorphologyHMMParams) (c : MorphClass)
    (s : List Char) : ℚ :=
  match assocLookup (emitRow p c) s with
  | some v => v
  | none =>
    p.smoothing_const /
      (((emitRow p c).map Prod.snd).sum
        + p.smoothing_const * ((emitRow p c).length + 1))

/-- Transition probability between states; transitions absent from the table
(the illegal ones) carry no mass. -/
def transition_prob (p : MorphologyHMMParams) (a b : HMMState) : ℚ :=
  match assocLookup p.affix_trans_probs (a, b) with
  | some v => v
  | none => 0

/-- The state sequence a tagged partition walks through, from word start to
word end. -/
def stateSeq (classes : List MorphClass) : List HMMState :=
  HMMState.start :: (classes.map classState ++ [HMMState.eow])

/-- Consecutive pairs of a state sequence. -/
def transPairs : List HMMState → List (HMMState × HMMState)
  | a :: b :: rest => (a, b) :: transPairs (b :: rest)
  | _ => []

/-- Modelled from the spec (4.4): the score of a tagged partition — the
product of the emission probabilities of its substrings and of the transition
probabilities along its state sequence. -/
def score (p : MorphologyHMMParams)
    (seg : List (List Char × MorphClass)) : ℚ :=
  (seg.map fun ts => emission_prob p ts.2 ts.1).prod
    * ((transPairs (stateSeq (seg.map Prod.snd))).map fun ab =>
        transition_prob p ab.1 ab.2).prod

/-- Maximum of a candidate list under a score, ties broken in favour of the
earliest candidate. -/
def argmaxQ {α : Type} (f : α → ℚ) : List α → Option α
  | [] => none
  | x :: xs =>
    match argmaxQ f xs with
    | none => some x
    | some y => if f y > f x then some y else some x

/-- Modelled from the spec (4.4): Viterbi decoding — the maximum-score legal
prefix*-stem-suffix* partition of the word, earliest-boundary tie-break; the
empty word is rejected as malformed input. -/
def segment_viterbi (p : MorphologyHMMParams) (w : List Char) :
    Except (List Char) (List (List Char × MorphClass)) :=
  if w = [] then Except.error "cannot segment an empty word".data
  else
    match argmaxQ (score p) (candidates w) with
    | some seg => Except.ok seg
    | none => Except.error "no legal segmentation".data

/-- Modelled from the spec (4.4): output formatting — with `add_affix_symbols`
the affixes are marked with an explicit separator symbol (the concrete symbol
is not fixed by the spec; modelled as `+`), otherwise the substrings are
space-joined unmarked.  Formatting never changes the decoded boundaries. -/
def formatSeg (addAffixSymbols : Bool)
    (seg : List (List Char × MorphClass)) : List Char :=
  joinSpace (seg.map fun ts =>
    if addAffixSymbols then
      match ts.2 with
      | MorphClass.pre => ts.1 ++ ['+']
      | MorphClass.stem => ts.1
      | MorphClass.suf => '+' :: ts.1
    else ts.1)

/-- Modelled from the spec (4.4): `segment_word(word, add_affix_symbols)` —
Viterbi decoding followed by output formatting. -/
def segment_word (p : MorphologyHMMParams) (addAffixSymbols : Bool)
    (w : List Char) : Except (List Char) (List Char) :=
  (segment_viterbi p w).map (formatSeg addAffixSymbols)

/-- A legal segmentation of `w` (spec 3): non-empty, its non-empty substrings
concatenate to exactly `w`, and its tags are zero or more PREFIX, exactly one
STEM, then zero or more SUFFIX. -/
def IsLegalSegmentation (w : List Char)
    (seg : List (List Char × MorphClass)) : Prop :=
  seg ≠ [] ∧
  (seg.map Prod.fst).flatten = w ∧
  (∀ ts ∈ seg, ts.1 ≠ []) ∧
  ∃ a b, seg.map Prod.snd =
    List.replicate a MorphClass.pre ++ [MorphClass.stem]
      ++ List.replicate b MorphClass.suf

/-- A small concrete count table used to instantiate the smoothing theorem. -/
def sampleCounts : CountTables :=
  ⟨[(['u', 'n'], 3)], [(['h', 'a', 'p'], 5), (['p', 'y'], 0)],
    [(['y'], 1)],
    [(HMMState.start, [(HMMState.pre, 2), (HMMState.stem, 1)]),
     (HMMState.stem, [(HMMState.suf, 0), (HMMState.eow, 4)])]⟩

/-! ## Theorems -/

/-- Every token produced by `pySplitAux` is non-empty: a token is emitted only
as `acc.reverse` for a non-empty `acc`. -/
theorem pySplitAux_ne_nil (l : List Char) :
    ∀ acc t, t ∈ pySplitAux l acc → t ≠ [] := by
  induction l with
  | nil =>
    intro acc t ht
    by_cases hacc : acc.isEmpty
    · simp [pySplitAux, hacc] at ht
    · simp only [pySplitAux, hacc, if_neg, Bool.false_eq_true,
        not_false_iff, List.mem_singleton] at ht
      subst ht
      simpa using (by simpa [List.isEmpty_iff] using hacc : acc ≠ [])
  | cons c cs ih =>
    intro acc t ht
    by_cases hsp : pyIsSpace c
    · simp only [pySplitAux, hsp, if_pos, List.mem_append] at ht
      rcases ht with ht | ht
      · by_cases hacc : acc.isEmpty
        · simp [hacc] at ht
        · simp only [hacc, Bool.false_eq_true, if_neg, not_false_iff,
            List.mem_singleton] at ht
          subst ht
          simpa using (by simpa [List.isEmpty_iff] using hacc : acc ≠ [])
      · exact ih [] t ht
    · simp only [pySplitAux, hsp, Bool.false_eq_true, if_neg,
        not_false_iff] at ht
      exact ih (c :: acc) t ht

/-- Every token produced by `pySplit` is non-empty. -/
theorem pySplit_ne_nil (l : List Char) : ∀ t ∈ pySplit l, t ≠ [] := by
  intro t ht
  exact pySplitAux_ne_nil l [] t ht

/-- On an all-whitespace remainder, `pySplitAux` just flushes the current
token. -/
theorem pySplitAux_allSpace : ∀ s : List Char, (∀ c ∈ s, pyIsSpace c) →
    ∀ acc, pySplitAux s acc = if acc.isEmpty then [] else [acc.reverse] := by
  intro s
  induction s with
  | nil => intro _ acc; rfl
  | cons c cs ih =>
    intro h acc
    have hc : pyIsSpace c := h c (by simp)
    have hcs : ∀ x ∈ cs, pyIsSpace x := fun x hx => h x (by simp [hx])
    simp only [pySplitAux, hc, if_pos]
    rw [ih hcs []]
    simp

/-- Trailing whitespace does not change the result of `pySplitAux`. -/
theorem pySplitAux_append_space (l s : List Char) (h : ∀ c ∈ s, pyIsSpace c) :
    ∀ acc, pySplitAux (l ++ s) acc = pySplitAux l acc := by
  induction l with
  | nil =>
    intro acc
    rw [List.nil_append, pySplitAux_allSpace s h acc]
    rfl
  | cons c cs ih =>
    intro acc
    by_cases hsp : pyIsSpace c
    · simp only [List.cons_append, pySplitAux, hsp, if_pos, List.append_eq, ih]
    · simp only [List.cons_append, pySplitAux, hsp, Bool.false_eq_true,
        if_neg, not_false_iff, List.append_eq, ih]

/-- Leading whitespace does not change the result of `pySplit`. -/
theorem pySplit_dropWhile (l : List Char) :
    pySplit (l.dropWhile pyIsSpace) = pySplit l := by
  induction l with
  | nil => rfl
  | cons c cs ih =>
    by_cases hsp : pyIsSpace c
    · rw [List.dropWhile_cons_of_pos hsp, ih]
      show pySplit cs = pySplitAux (c :: cs) []
      simp [pySplitAux, hsp, pySplit]
    · rw [List.dropWhile_cons_of_neg (by simp [hsp])]

/-- Stripping a line does not change its token list: `pySplit` already ignores
leading and trailing whitespace. -/
theorem pySplit_pyStrip (l : List Char) : pySplit (pyStrip l) = pySplit l := by
  unfold pyStrip
  set m := l.dropWhile pyIsSpace with hm
  have hsplit : m.reverse.takeWhile pyIsSpace ++ m.reverse.dropWhile pyIsSpace
      = m.reverse := List.takeWhile_append_dropWhile pyIsSpace m.reverse
  have hm_eq : m = (m.reverse.dropWhile pyIsSpace).reverse
      ++ (m.reverse.takeWhile pyIsSpace).reverse := by
    calc m = m.reverse.reverse := (List.reverse_reverse m).symm
    _ = (m.reverse.takeWhile pyIsSpace ++ m.reverse.dropWhile pyIsSpace).reverse := by
        rw [hsplit]
    _ = _ := by rw [List.reverse_append]
  have hspace : ∀ c ∈ (m.reverse.takeWhile pyIsSpace).reverse, pyIsSpace c := by
    intro c hc
    exact List.mem_takeWhile_imp (List.mem_reverse.mp hc)
  calc pySplit (m.reverse.dropWhile pyIsSpace).reverse
      = pySplit ((m.reverse.dropWhile pyIsSpace).reverse
          ++ (m.reverse.takeWhile pyIsSpace).reverse) :=
        (pySplitAux_append_space _ _ hspace []).symm
    _ = pySplit m := by rw [← hm_eq]
    _ = pySplit l := pySplit_dropWhile l

theorem lookupCache_mem {m : List (List Char × List Char)} {w v : List Char}
    (h : lookupCache m w = some v) : (w, v) ∈ m := by
  induction m with
  | nil => simp [lookupCache] at h
  | cons p rest ih =>
    obtain ⟨k, u⟩ := p
    by_cases hw : w = k
    · simp only [lookupCache, hw, if_pos, Option.some.injEq] at h
      subst hw; subst h; simp
    · simp only [lookupCache, hw, if_neg, not_false_iff] at h
      exact List.mem_cons_of_mem _ (ih h)

theorem initialState_good (segFn : List Char → List Char) :
    StateGood segFn initialState := by
  refine ⟨?_, ?_, ?_⟩ <;> simp [initialState, lookupCache, StateGood]

theorem processWord_spec (segFn : List Char → List Char) (st : SegRunState)
    (word : List Char) (hg : StateGood segFn st) :
    StateGood segFn (processWord segFn st word).1 ∧
    (processWord segFn st word).2 = segFn word ∧
    ∀ v, (lookupCache (processWord segFn st word).1.cache v).isSome ↔
      ((lookupCache st.cache v).isSome ∨ v = word) := by
  obtain ⟨hcache, hnodup, hcalls⟩ := hg
  cases hl : lookupCache st.cache word with
  | some s =>
    have hred : processWord segFn st word = (st, s) := by
      simp [processWord, hl]
    have hmem : (word, s) ∈ st.cache := lookupCache_mem hl
    have hs : s = segFn word := hcache _ hmem
    rw [hred]
    refine ⟨⟨hcache, hnodup, hcalls⟩, hs, ?_⟩
    intro v
    constructor
    · exact fun h => Or.inl h
    · rintro (h | rfl)
      · exact h
      · simp [hl]
  | none =>
    have hred : processWord segFn st word =
        (⟨(word, segFn word) :: st.cache, st.calls ++ [word]⟩, segFn word) := by
      simp [processWord, hl]
    have hwnotin : word ∉ st.calls := by
      rw [hcalls word]
      simp [hl]
    rw [hred]
    refine ⟨⟨?_, ?_, ?_⟩, rfl, ?_⟩
    · intro p hp
      simp only [List.mem_cons] at hp
      rcases hp with rfl | hp
      · rfl
      · exact hcache _ hp
    · rw [List.nodup_append]
      exact ⟨hnodup, List.nodup_singleton _, by
        intro a ha hb
        simp only [List.mem_singleton] at hb
        subst hb
        exact hwnotin ha⟩
    · intro w
      simp only [lookupCache, List.mem_append, List.mem_singleton]
      by_cases hw : w = word
      · simp [hw]
      · simp only [hw, if_neg, not_false_iff, or_false]
        exact hcalls w
    · intro v
      simp only [lookupCache]
      by_cases hv : v = word
      · simp [hv]
      · simp [hv]

theorem processWords_spec (segFn : List Char → List Char) :
    ∀ (ws : List (List Char)) (st : SegRunState), StateGood segFn st →
    StateGood segFn (processWords segFn st ws).1 ∧
    (processWords segFn st ws).2 = ws.map segFn ∧
    ∀ v, (lookupCache (processWords segFn st ws).1.cache v).isSome ↔
      ((lookupCache st.cache v).isSome ∨ v ∈ ws) := by
  intro ws
  induction ws with
  | nil =>
    intro st hg
    exact ⟨hg, by simp [processWords], by simp [processWords]⟩
  | cons w ws ih =>
    intro st hg
    obtain ⟨hg1, hval, hkeys1⟩ := processWord_spec segFn st w hg
    obtain ⟨hg2, houts, hkeys2⟩ := ih _ hg1
    refine ⟨?_, ?_, ?_⟩
    · simpa [processWords] using hg2
    · simp [processWords, houts, hval]
    · intro v
      simp only [processWords]
      rw [hkeys2 v, hkeys1 v]
      simp [List.mem_cons, or_assoc, or_comm (a := v = w)]

theorem processLines_spec (segFn : List Char → List Char) :
    ∀ (ls : List (List Char)) (st : SegRunState), StateGood segFn st →
    StateGood segFn (processLines segFn st ls).1 ∧
    (processLines segFn st ls).2 =
      ls.map (fun line => joinSpace ((pySplit (pyStrip line)).map segFn)) ∧
    ∀ v, (lookupCache (processLines segFn st ls).1.cache v).isSome ↔
      ((lookupCache st.cache v).isSome ∨ v ∈ allWords ls) := by
  intro ls
  induction ls with
  | nil =>
    intro st hg
    exact ⟨hg, by simp [processLines], by simp [processLines, allWords]⟩
  | cons line ls ih =>
    intro st hg
    obtain ⟨hg1, houts1, hkeys1⟩ :=
      processWords_spec segFn (pySplit (pyStrip line)) st hg
    obtain ⟨hg2, houts2, hkeys2⟩ := ih _ hg1
    refine ⟨?_, ?_, ?_⟩
    · simpa [processLines, processLine] using hg2
    · simp [processLines, processLine, houts2, houts1]
    · intro v
      simp only [processLines, processLine]
      rw [hkeys2 v, hkeys1 v]
      simp [allWords, or_assoc]

/-- Claim C2: the segmentation entry point writes exactly one output line per
input line, in input order, and each output line is the single-space join of
the segmentation strings of that line's whitespace-delimited words, in their
order of appearance. -/
theorem runSegmentation_one_line_per_line (segFn : List Char → List Char)
    (lines : List (List Char)) :
    runSegmentation segFn lines =
      lines.map (fun line => joinSpace ((pySplit (pyStrip line)).map segFn)) ∧
    (runSegmentation segFn lines).length = lines.length := by
  have h := (processLines_spec segFn lines initialState
    (initialState_good segFn)).2.1
  refine ⟨h, ?_⟩
  rw [runSegmentation, h]
  exact List.length_map _ _

/-- Claim C3: within one run over a fixed segmentor, every occurrence of the
same word yields the identical segmentation string (each occurrence of `w`
contributes `segFn w`), the cache always stores the segmentor's answer for its
key, `segment_word` is invoked at most once per word (`calls` has no
duplicates), and the invoked words are exactly the distinct words of the
input. -/
theorem segment_cache_consistency (segFn : List Char → List Char)
    (lines : List (List Char)) :
    (∀ p ∈ (processLines segFn initialState lines).1.cache, p.2 = segFn p.1) ∧
    (processLines segFn initialState lines).2 =
      lines.map (fun line => joinSpace ((pySplit (pyStrip line)).map segFn)) ∧
    (processLines segFn initialState lines).1.calls.Nodup ∧
    (∀ w, w ∈ (processLines segFn initialState lines).1.calls ↔
      w ∈ allWords lines) := by
  obtain ⟨⟨hcache, hnodup, hcalls⟩, houts, hkeys⟩ :=
    processLines_spec segFn lines initialState (initialState_good segFn)
  refine ⟨hcache, houts, hnodup, ?_⟩
  intro w
  rw [hcalls w, hkeys w]
  simp [initialState, lookupCache]

/-- Claim C9: the batch segmentation entry point never passes an empty string
to `segment_word` — every word it invokes the segmentor on comes from
whitespace-splitting a stripped input line, hence is non-empty. -/
theorem segment_word_never_called_on_empty (segFn : List Char → List Char)
    (lines : List (List Char)) :
    ∀ w ∈ (processLines segFn initialState lines).1.calls, w ≠ [] := by
  obtain ⟨⟨hcache, hnodup, hcalls⟩, houts, hkeys⟩ :=
    processLines_spec segFn lines initialState (initialState_good segFn)
  intro w hw
  have hword : w ∈ allWords lines := by
    have := (hcalls w).mp hw
    rw [hkeys w] at this
    simpa [initialState, lookupCache] using this
  obtain ⟨line, _, htok⟩ := List.mem_flatMap.mp hword
  exact pySplit_ne_nil _ w htok

/-- Witness for claim C9 at a concrete run: over the single input line `a`,
the word `a` is passed to the segmentor and is non-empty. -/
theorem segment_word_never_called_on_empty_witness :
    (['a'] ∈ (processLines (fun w => w) initialState [['a']]).1.calls) ∧
      ['a'] ≠ [] :=
  ⟨by decide,
    segment_word_never_called_on_empty (fun w => w) [['a']] ['a'] (by decide)⟩

/-- Claim C10: the segmentation entry point does not preserve input
whitespace: the output for a line depends only on its token list (leading and
trailing whitespace is discarded; tokens are rejoined with exactly one space),
a whitespace-only line produces an empty output line, and one output line is
still written per input line. -/
theorem runSegmentation_whitespace_normalization
    (segFn : List Char → List Char) (lines : List (List Char)) :
    runSegmentation segFn lines =
      lines.map (fun line => joinSpace ((pySplit line).map segFn)) ∧
    (runSegmentation segFn lines).length = lines.length ∧
    ∀ line : List Char, (∀ c ∈ line, pyIsSpace c) →
      joinSpace ((pySplit line).map segFn) = [] := by
  have h := (processLines_spec segFn lines initialState
    (initialState_good segFn)).2.1
  have hmap : runSegmentation segFn lines =
      lines.map (fun line => joinSpace ((pySplit line).map segFn)) := by
    rw [runSegmentation, h]
    exact List.map_congr_left fun line _ => by rw [pySplit_pyStrip]
  refine ⟨hmap, ?_, ?_⟩
  · rw [hmap]
    exact List.length_map _ _
  · intro line hsp
    have : pySplit line = [] := by
      rw [pySplit, pySplitAux_allSpace line hsp []]
      rfl
    rw [this]
    rfl

/-- Claim C8: `use_hardEM` defaults to `false`, so by default the EM trainer
runs in soft-EM mode (forward-backward expectation), not Viterbi hard
assignment. -/
theorem use_hardEM_defaults_false :
    get_arg_parser_defaults.use_hardEM = false ∧
    estepMode get_arg_parser_defaults.use_hardEM = EStepMode.forwardBackward :=
  ⟨rfl, rfl⟩

theorem flatMap_const {α β : Type} (l : List α) (xs : List β) :
    (l.flatMap fun _ => xs) = (List.replicate l.length xs).flatten := by
  induction l with
  | nil => rfl
  | cons a l ih => simp [List.flatMap_cons, ih, List.replicate_succ]

theorem em_events_none (n : Nat) :
    expectation_maximization_events n none =
      List.replicate n TrainEvent.emIteration := by
  rw [expectation_maximization_events, flatMap_const, List.length_range]
  induction n with
  | zero => rfl
  | succ n ih => simp [List.replicate_succ, ih]

theorem em_events_some (n : Nat) (p : List Char) :
    expectation_maximization_events n (some p) =
      (List.replicate n [TrainEvent.emIteration, TrainEvent.saveModel p]).flatten := by
  rw [expectation_maximization_events, flatMap_const, List.length_range]

/-- Claim C7, counterexample: invoking the training entry point with a
training file and a model path, checkpointing on, and zero configured EM
iterations produces no save event at all, so no serialized Parameter Store
exists at the model path after training. -/
theorem training_checkpoint_zero_iters_no_save :
    runTrainingEvents { get_arg_parser_defaults with
      train_file := some ['t'], model_path := some ['m'],
      save_checkpoint := true, em_iter := 0 } = [] ∧
    TrainEvent.saveModel ['m'] ∉ runTrainingEvents { get_arg_parser_defaults with
      train_file := some ['t'], model_path := some ['m'],
      save_checkpoint := true, em_iter := 0 } := by
  constructor
  · rfl
  · intro h
    simp [runTrainingEvents, expectation_maximization_events,
      get_arg_parser_defaults] at h

/-- Claim C7 (amended): whenever the training entry point is invoked with a
training file and a model path, the run performs exactly the configured number
of EM iterations; with checkpointing off a single final save then writes the
store to the model path, and with checkpointing on the store is persisted to
that path after every iteration (including the last) with no final save — so a
store exists at the model path provided checkpointing is off or at least one
iteration is configured (with checkpointing on and zero iterations, nothing is
ever written). -/
theorem training_saves_model (opts : Options) (tf mp : List Char)
    (htf : opts.train_file = some tf) (hmp : opts.model_path = some mp)
    (hok : opts.save_checkpoint = false ∨ 1 ≤ opts.em_iter) :
    (opts.save_checkpoint = false →
      runTrainingEvents opts =
        List.replicate opts.em_iter.toNat TrainEvent.emIteration
          ++ [TrainEvent.saveModel mp]) ∧
    (opts.save_checkpoint = true →
      runTrainingEvents opts =
        (List.replicate opts.em_iter.toNat
          [TrainEvent.emIteration, TrainEvent.saveModel mp]).flatten) ∧
    TrainEvent.saveModel mp ∈ runTrainingEvents opts := by
  cases hsc : opts.save_checkpoint with
  | false =>
    have hred : runTrainingEvents opts =
        List.replicate opts.em_iter.toNat TrainEvent.emIteration
          ++ [TrainEvent.saveModel mp] := by
      simp [runTrainingEvents, htf, hmp, hsc, em_events_none]
    refine ⟨fun _ => hred, fun h => Bool.noConfusion h, ?_⟩
    rw [hred]
    exact List.mem_append_right _ (by simp)
  | true =>
    have hred : runTrainingEvents opts =
        (List.replicate opts.em_iter.toNat
          [TrainEvent.emIteration, TrainEvent.saveModel mp]).flatten := by
      simp [runTrainingEvents, htf, hmp, hsc, em_events_some]
    have hiter : 1 ≤ opts.em_iter := by
      rcases hok with h | h
      · rw [hsc] at h; cases h
      · exact h
    refine ⟨fun h => Bool.noConfusion h, fun _ => hred, ?_⟩
    rw [hred]
    refine List.mem_flatten.mpr
      ⟨[TrainEvent.emIteration, TrainEvent.saveModel mp], ?_, by simp⟩
    rw [List.mem_replicate]
    exact ⟨by omega, rfl⟩

theorem sum_map_div {α : Type} (l : List α) (f : α → ℚ) (d : ℚ) :
    (l.map fun x => f x / d).sum = (l.map f).sum / d := by
  induction l with
  | nil => simp
  | cons a l ih => simp [ih, add_div]

theorem sum_map_add_const {α : Type} (l : List α) (f : α → ℚ) (k : ℚ) :
    (l.map fun x => f x + k).sum = (l.map f).sum + l.length * k := by
  induction l with
  | nil => simp
  | cons a l ih =>
    simp only [List.map_cons, List.sum_cons, ih, List.length_cons]
    push_cast
    ring

theorem smoothVals_spec (k : ℚ) (hk : 0 < k) (vs : List ℚ) (hne : vs ≠ [])
    (hnn : ∀ v ∈ vs, 0 ≤ v) :
    (smoothVals k vs).sum = 1 ∧ ∀ v ∈ smoothVals k vs, 0 < v := by
  have hT : 0 ≤ vs.sum := List.sum_nonneg hnn
  have hn : 1 ≤ vs.length := by
    cases vs with
    | nil => exact absurd rfl hne
    | cons a l => simp
  have hd : 0 < vs.sum + vs.length * k := by
    have : (1 : ℚ) * k ≤ (vs.length : ℚ) * k := by
      apply mul_le_mul_of_nonneg_right _ (le_of_lt hk)
      exact_mod_cast hn
    nlinarith
  constructor
  · rw [smoothVals, sum_map_div, sum_map_add_const, List.map_id']
    exact div_self (ne_of_gt hd)
  · intro v hv
    obtain ⟨c, hc, rfl⟩ := List.mem_map.mp hv
    exact div_pos (by linarith [hnn c hc]) hd

theorem smoothRow_vals {α : Type} (k : ℚ) (row : List (α × ℚ)) :
    (smoothRow k row).map Prod.snd = smoothVals k (row.map Prod.snd) := by
  simp [smoothRow, smoothVals, List.map_map, Function.comp]

theorem valueRows_smooth (k : ℚ) (t : CountTables) :
    valueRows (smoothCounts k t) = (valueRows t).map (smoothVals k) := by
  simp only [valueRows, smoothCounts, List.map_cons, List.map_nil,
    List.map_map, List.cons_append, List.nil_append, smoothRow_vals,
    List.cons.injEq, true_and]
  apply List.map_congr_left
  intro sr _
  simp [Function.comp, smoothRow_vals]

/-- Claim C4: after `Smooth()` on M-step counts (nonnegative raw counts, a
positive smoothing constant, and no empty row), every emission-table row and
every transition-table row sums to exactly 1 and contains no zero entry —
every value is strictly positive. -/
theorem smooth_rows_normalized (k : ℚ) (t : CountTables) (hk : 0 < k)
    (hne : ∀ r ∈ valueRows t, r ≠ [])
    (hnn : ∀ r ∈ valueRows t, ∀ v ∈ r, 0 ≤ v) :
    ∀ r ∈ valueRows (smoothCounts k t), r.sum = 1 ∧ ∀ v ∈ r, 0 < v := by
  intro r hr
  rw [valueRows_smooth] at hr
  obtain ⟨r0, hr0, rfl⟩ := List.mem_map.mp hr
  exact smoothVals_spec k hk r0 (hne r0 hr0) (hnn r0 hr0)

/-- Witness for claim C4 at a concrete table (`sampleCounts`, smoothing
constant 2): the smoothed stem-emission row sums to exactly 1. -/
theorem smooth_rows_normalized_witness :
    ((smoothCounts 2 sampleCounts).stemEmit.map Prod.snd).sum = 1 :=
  (smooth_rows_normalized 2 sampleCounts (by decide) (by decide) (by decide)
    ((smoothCounts 2 sampleCounts).stemEmit.map Prod.snd)
    (by simp [valueRows])).1

theorem decodeAll_encode {β : Type} (dec : PVal → Option β) (enc : β → PVal)
    (h : ∀ b, dec (enc b) = some b) :
    ∀ l : List β, decodeAll dec (l.map enc) = some l := by
  intro l
  induction l with
  | nil => rfl
  | cons b l ih => simp [decodeAll, h, ih]

theorem decodeQRow_encodeQRow (row : List (List Char × ℚ)) :
    decodeQRow (encodeQRow row) = some row :=
  decodeAll_encode decodeQEntry
    (fun kv => PVal.plist [PVal.pstr kv.1, PVal.pnum kv.2])
    (fun _ => rfl) row

theorem decodeNRow_encodeNRow (row : List (List Char × Nat)) :
    decodeNRow (encodeNRow row) = some row :=
  decodeAll_encode decodeNEntry
    (fun kv => PVal.plist [PVal.pstr kv.1, PVal.pnat kv.2])
    (fun _ => rfl) row

theorem decodeState_stateTag (s : HMMState) :
    decodeState (stateTag s) = some s := by
  cases s <;> rfl

theorem decodeTransRow_encodeTransRow (row : List ((HMMState × HMMState) × ℚ)) :
    decodeTransRow (encodeTransRow row) = some row := by
  refine decodeAll_encode decodeTransEntry
    (fun kv => PVal.plist [PVal.pstr (stateTag kv.1.1),
      PVal.pstr (stateTag kv.1.2), PVal.pnum kv.2]) ?_ row
  intro b
  simp [decodeTransEntry, decodeState_stateTag]

/-- Claim C5: `Load(Save(store))` reproduces the store exactly — every table
key, every probability value, every word count, and the smoothing constant are
equal to those of the original store. -/
theorem load_save_roundtrip (p : MorphologyHMMParams) :
    MorphologyHMMParams.load (MorphologyHMMParams.save p) = some p := by
  simp [MorphologyHMMParams.save, MorphologyHMMParams.load,
    decodeQRow_encodeQRow, decodeNRow_encodeNRow, decodeTransRow_encodeTransRow]

theorem map_const_replicate {α β : Type} (l : List α) (b : β) :
    (l.map fun _ => b) = List.replicate l.length b := by
  induction l with
  | nil => rfl
  | cons a l ih => simp [ih, List.replicate_succ]

theorem allSplits_eq (l : List Char) : ∀ pq ∈ allSplits l, pq.1 ++ pq.2 = l := by
  induction l with
  | nil =>
    intro pq hpq
    simp only [allSplits, List.mem_singleton] at hpq
    subst hpq; rfl
  | cons c cs ih =>
    intro pq hpq
    simp only [allSplits, List.mem_cons, List.mem_map] at hpq
    rcases hpq with rfl | ⟨q, hq, rfl⟩
    · rfl
    · simp only [List.cons_append, List.cons.injEq, true_and]
      exact ih q hq

theorem self_mem_allSplits (l : List Char) :
    (l, ([] : List Char)) ∈ allSplits l := by
  induction l with
  | nil => simp [allSplits]
  | cons c cs ih =>
    simp only [allSplits, List.mem_cons, List.mem_map]
    exact Or.inr ⟨(cs, []), ih, rfl⟩

theorem compositionsFuel_sound :
    ∀ (n : Nat) (l : List Char), ∀ ch ∈ compositionsFuel n l,
      ch.flatten = l ∧ ∀ t ∈ ch, t ≠ [] := by
  intro n
  induction n with
  | zero =>
    intro l ch hch
    cases l with
    | nil =>
      simp only [compositionsFuel, List.mem_singleton] at hch
      subst hch
      exact ⟨rfl, by simp⟩
    | cons c cs => simp [compositionsFuel] at hch
  | succ n ih =>
    intro l ch hch
    cases l with
    | nil =>
      simp only [compositionsFuel, List.mem_singleton] at hch
      subst hch
      exact ⟨rfl, by simp⟩
    | cons c cs =>
      simp only [compositionsFuel, List.mem_flatMap, List.mem_map] at hch
      obtain ⟨pq, hpq, rest, hrest, rfl⟩ := hch
      obtain ⟨hflat, hne⟩ := ih pq.2 rest hrest
      constructor
      · simp only [List.flatten_cons, hflat, List.cons_append,
          List.cons.injEq, true_and]
        exact allSplits_eq cs pq hpq
      · intro t ht
        rcases List.mem_cons.mp ht with rfl | ht
        · simp
        · exact hne t ht

theorem singleton_mem_compositionsFuel (n : Nat) (hn : 1 ≤ n)
    (c : Char) (cs : List Char) :
    [c :: cs] ∈ compositionsFuel n (c :: cs) := by
  cases n with
  | zero => exact absurd hn (by simp)
  | succ n =>
    simp only [compositionsFuel, List.mem_flatMap, List.mem_map]
    exact ⟨(cs, []), self_mem_allSplits cs, [], by simp [compositionsFuel], rfl⟩

theorem argmaxQ_mem {α : Type} (f : α → ℚ) :
    ∀ (l : List α) (x : α), argmaxQ f l = some x → x ∈ l := by
  intro l
  induction l with
  | nil => intro x hx; simp [argmaxQ] at hx
  | cons a l ih =>
    intro x hx
    cases h2 : argmaxQ f l with
    | none =>
      simp only [argmaxQ, h2, Option.some.injEq] at hx
      subst hx; simp
    | some y =>
      simp only [argmaxQ, h2] at hx
      by_cases hgt : f y > f a
      · rw [if_pos hgt] at hx
        injection hx with h
        subst h
        exact List.mem_cons_of_mem _ (ih _ h2)
      · rw [if_neg hgt] at hx
        injection hx with h
        subst h
        simp

theorem argmaxQ_isSome {α : Type} (f : α → ℚ) (l : List α) (h : l ≠ []) :
    ∃ x, argmaxQ f l = some x := by
  cases l with
  | nil => exact absurd rfl h
  | cons a l =>
    cases h2 : argmaxQ f l with
    | none => exact ⟨a, by simp [argmaxQ, h2]⟩
    | some y =>
      by_cases hgt : f y > f a
      · exact ⟨y, by simp [argmaxQ, h2, hgt]⟩
      · exact ⟨a, by simp [argmaxQ, h2, hgt]⟩

theorem tagWith_fst (s : Nat) (ch : List (List Char)) :
    (tagWith s ch).map Prod.fst = ch := by
  simp only [tagWith, List.map_append, List.map_map]
  have hdrop : ch.drop (s + 1) = (ch.drop s).drop 1 := by
    rw [List.drop_drop, Nat.add_comm]
  have hA : (ch.take s).map
      (Prod.fst ∘ fun t : List Char => (t, MorphClass.pre)) = ch.take s := by
    rw [show (Prod.fst ∘ fun t : List Char => (t, MorphClass.pre)) = id from
      rfl, List.map_id]
  have hB : ((ch.drop s).take 1).map
      (Prod.fst ∘ fun t : List Char => (t, MorphClass.stem))
      = (ch.drop s).take 1 := by
    rw [show (Prod.fst ∘ fun t : List Char => (t, MorphClass.stem)) = id from
      rfl, List.map_id]
  have hC : (ch.drop (s + 1)).map
      (Prod.fst ∘ fun t : List Char => (t, MorphClass.suf))
      = ch.drop (s + 1) := by
    rw [show (Prod.fst ∘ fun t : List Char => (t, MorphClass.suf)) = id from
      rfl, List.map_id]
  rw [hA, hB, hC, hdrop, List.append_assoc, List.take_append_drop,
    List.take_append_drop]

theorem tagWith_snd (s : Nat) (ch : List (List Char)) (hs : s < ch.length) :
    (tagWith s ch).map Prod.snd =
      List.replicate s MorphClass.pre ++ [MorphClass.stem]
        ++ List.replicate (ch.length - (s + 1)) MorphClass.suf := by
  obtain ⟨x, xs, hx⟩ : ∃ x xs, ch.drop s = x :: xs := by
    cases hd : ch.drop s with
    | nil =>
      exfalso
      have := List.length_drop s ch
      rw [hd] at this
      simp only [List.length_nil] at this
      omega
    | cons x xs => exact ⟨x, xs, rfl⟩
  have hdrop : ch.drop (s + 1) = (ch.drop s).drop 1 := by
    rw [List.drop_drop, Nat.add_comm]
  have hxs : ch.drop (s + 1) = xs := by rw [hdrop, hx]; simp
  have hlen : xs.length = ch.length - (s + 1) := by
    have h := List.length_drop (s + 1) ch
    rw [hxs] at h
    exact h
  have htake : (ch.take s).length = s := by
    rw [List.length_take]
    exact Nat.min_eq_left (Nat.le_of_lt hs)
  simp only [tagWith, List.map_append, List.map_map]
  have h1 : (ch.take s).map
      (Prod.snd ∘ fun t : List Char => (t, MorphClass.pre))
      = List.replicate s MorphClass.pre := by
    rw [show (Prod.snd ∘ fun t : List Char => (t, MorphClass.pre))
        = fun _ => MorphClass.pre from rfl, map_const_replicate, htake]
  have h2 : ((ch.drop s).take 1).map
      (Prod.snd ∘ fun t : List Char => (t, MorphClass.stem))
      = [MorphClass.stem] := by
    rw [hx]
    simp
  have h3 : (ch.drop (s + 1)).map
      (Prod.snd ∘ fun t : List Char => (t, MorphClass.suf))
      = List.replicate (ch.length - (s + 1)) MorphClass.suf := by
    rw [hxs, show (Prod.snd ∘ fun t : List Char => (t, MorphClass.suf))
        = fun _ => MorphClass.suf from rfl, map_const_replicate, hlen]
  rw [h1, h2, h3]

theorem candidates_legal (w : List Char) (hw : w ≠ []) :
    ∀ seg ∈ candidates w, IsLegalSegmentation w seg := by
  intro seg hseg
  obtain ⟨ch, hch, hseg2⟩ := List.mem_flatMap.mp hseg
  obtain ⟨s, hs, rfl⟩ := List.mem_map.mp hseg2
  rw [List.mem_range] at hs
  obtain ⟨hflat, htok⟩ := compositionsFuel_sound w.length w ch hch
  have hch_ne : ch ≠ [] := by
    intro hc
    exact hw (by rw [← hflat, hc]; rfl)
  refine ⟨?_, ?_, ?_, ⟨s, ch.length - (s + 1), tagWith_snd s ch hs⟩⟩
  · intro h
    apply hch_ne
    have hfst := tagWith_fst s ch
    rw [h] at hfst
    exact hfst.symm
  · rw [tagWith_fst s ch]
    exact hflat
  · intro ts hts
    have hmem : ts.1 ∈ (tagWith s ch).map Prod.fst :=
      List.mem_map_of_mem Prod.fst hts
    rw [tagWith_fst s ch] at hmem
    exact htok ts.1 hmem

theorem stem_only_mem_candidates (w : List Char) (hw : w ≠ []) :
    tagWith 0 [w] ∈ candidates w := by
  cases w with
  | nil => exact absurd rfl hw
  | cons c cs =>
    refine List.mem_flatMap.mpr ⟨[c :: cs], ?_, ?_⟩
    · exact singleton_mem_compositionsFuel (c :: cs).length (by simp)
        c cs
    · exact List.mem_map.mpr ⟨0, by simp, rfl⟩

theorem candidates_ne_nil (w : List Char) (hw : w ≠ []) :
    candidates w ≠ [] :=
  List.ne_nil_of_mem (stem_only_mem_candidates w hw)

/-- Claim C1: for every non-empty word (single-character and unseen words
included), `segment_viterbi` succeeds with a legal segmentation — a non-empty
ordered sequence of non-empty substrings concatenating to exactly the input
word, tagged as zero or more prefixes, exactly one stem, then zero or more
suffixes — and `segment_word` returns its formatted string. -/
theorem segment_word_returns_legal (p : MorphologyHMMParams) (w : List Char)
    (hw : w ≠ []) :
    ∃ seg, segment_viterbi p w = Except.ok seg ∧ IsLegalSegmentation w seg ∧
      ∀ b, segment_word p b w = Except.ok (formatSeg b seg) := by
  obtain ⟨seg, hseg⟩ :=
    argmaxQ_isSome (score p) (candidates w) (candidates_ne_nil w hw)
  refine ⟨seg, ?_, ?_, ?_⟩
  · simp [segment_viterbi, hw, hseg]
  · exact candidates_legal w hw seg (argmaxQ_mem (score p) (candidates w) seg hseg)
  · intro b
    simp [segment_word, segment_viterbi, hw, hseg, Except.map]

/-- Witness for claim C1: the single-character word `a` (unseen by an empty
Parameter Store with smoothing constant 2) is segmented legally. -/
theorem segment_word_returns_legal_witness :
    ∃ seg, segment_viterbi ⟨[], [], [], [], [], [], [], [], 2⟩ ['a']
        = Except.ok seg ∧
      IsLegalSegmentation ['a'] seg ∧
      ∀ b, segment_word ⟨[], [], [], [], [], [], [], [], 2⟩ b ['a']
        = Except.ok (formatSeg b seg) :=
  segment_word_returns_legal ⟨[], [], [], [], [], [], [], [], 2⟩ ['a']
    (by decide)

/-- Claim C6: the empty word is rejected as malformed input — both
`segment_viterbi` and `segment_word` fail with the invalid-input error and
never silently segment it. -/
theorem segment_empty_word_rejected (p : MorphologyHMMParams) (b : Bool) :
    segment_viterbi p [] = Except.error "cannot segment an empty word".data ∧
    segment_word p b [] = Except.error "cannot segment an empty word".data :=
  ⟨rfl, rfl⟩

/-- Witness for the amended claim C7 at a concrete configuration: the default
options with a training file and model path supplied (checkpointing off,
thirty iterations) perform thirty EM iterations and then one final save to the
model path. -/
theorem training_saves_model_witness :
    runTrainingEvents { get_arg_parser_defaults with
        train_file := some ['t'], model_path := some ['m'] } =
      List.replicate 30 TrainEvent.emIteration ++ [TrainEvent.saveModel ['m']] :=
  (training_saves_model
    { get_arg_parser_defaults with
        train_file := some ['t'], model_path := some ['m'] }
    ['t'] ['m'] rfl rfl (Or.inl rfl)).1 rfl

end Morphology

